import Mathlib

/-!
# Verification of the GRD–MINEDU dashboard's data-transformation core

Shallow embedding of the pure data-transformation layer of `src/app.py`
(category normalizer, answer canonicalizer, frequency tabulator, response
orderer, filter engine), with theorems settling the frozen claims.

Modelling conventions:
* a pandas cell that may be missing is `Option String`; a column is a list of
  cells; elementwise `Series` pipelines become `List.map` of a cell function;
* `str.upper()` is modelled by `String.toUpper` (ASCII case folding — all
  matching tokens in the source are ASCII, so this is observably faithful);
* `str.strip()` is modelled by dropping whitespace characters from both ends;
* `Series.value_counts` counts distinct values in first-occurrence order and
  then sorts by count, descending and stable, as pandas does;
* `np.round` / `Series.round` round half to even (banker's rounding); the
  percentage `round(count * 100 / total)` is computed on the exact rational,
  i.e. on `(count*100) / total` in ℕ with the half-even tie rule;
* the in-place column assignment `df_freq["Respuesta"] = pd.Categorical(...)`
  on line 82 of `app.py` mutates the caller's frame; `ordenar_respuestas` is
  therefore embedded in state-passing style, returning the pair
  (argument's state after the call, returned table).  The `cat` field of
  `TablaFrec` records the dtype of the label column: `none` = plain strings
  (the dtype of every table the dashboard builds), `some orden` = ordered
  Categorical with categories `orden`.
-/

/-- Whitespace predicate used by the model of Python's `str.strip()`. -/
def esEspacio (c : Char) : Bool := c.isWhitespace

/-- Strip whitespace from both ends of a character list (Python `str.strip`). -/
def stripChars (l : List Char) : List Char :=
  ((l.dropWhile esEspacio).reverse.dropWhile esEspacio).reverse

/-- `str.strip()` on strings. -/
def strip (s : String) : String := ⟨stripChars s.data⟩

/-- `buscaInfijo pat l` decides whether `pat` occurs as a contiguous substring
of `l`. -/
def buscaInfijo (pat : List Char) : List Char → Bool
  | [] => pat.isEmpty
  | c :: rest => pat.isPrefixOf (c :: rest) || buscaInfijo pat rest

/-- Substring containment: `contiene s pat` models `s2.str.contains(pat)` of
pandas (the tokens used contain no regex metacharacters, so regex containment
is plain substring containment). -/
def contiene (s pat : String) : Bool := buscaInfijo pat.data s.data

/-- `str.upper()` modelled characterwise (ASCII case folding; every matching
token and null-ish literal in the source is ASCII). -/
def mayusculas (s : String) : String := ⟨s.data.map Char.toUpper⟩

/-- The six fixed labels of the normalized-tier taxonomy. -/
def etiquetasInstancia : List String :=
  ["UGEL", "DRE/GRE", "ODENAGED", "MINEDU", "OTRAS", "Sin especificar"]

/-- Per-cell semantics of `normalizar_instancia` (`app.py` lines 48–56).

The source builds `out = Series("OTRAS")` and then applies five `mask`
assignments in sequence; each `mask` overwrites the rows where its condition
holds, so a later mask overrides an earlier one.  The `let` chain below
mirrors the masks in source order.  (`s2.isna()` in the last mask is dropped:
after `fillna("").astype(str)` the series has no missing values.) -/
def normalizar_instancia (c : Option String) : String :=
  let s2 := mayusculas (c.getD "")
  let r0 := "OTRAS"
  let r1 := if contiene s2 "UGEL" then "UGEL" else r0
  let r2 := if contiene s2 "DRE" || contiene s2 "GRE" then "DRE/GRE" else r1
  let r3 := if contiene s2 "ODENAGED" then "ODENAGED" else r2
  let r4 := if contiene s2 "MINEDU" then "MINEDU" else r3
  if s2 == "" || s2 ∈ ["-", "NAN", "NONE"] then "Sin especificar" else r4

/-- Column-level `normalizar_instancia`: elementwise over the series. -/
def normalizar_instancia_col (col : List (Option String)) : List String :=
  col.map normalizar_instancia

/-- The fixed spelling-variant dictionary `m` of `canonizar_respuestas`
(`app.py` lines 60–61). -/
def reemplazos : List (String × String) :=
  [("Si", "Sí"), ("si", "Sí"), ("SI", "Sí"), ("SÍ", "Sí"),
   ("No se", "No sé"), ("No Se", "No sé"), ("NO SE", "No sé"), ("NO SÉ", "No sé")]

/-- `Series.replace(m)`: exact full-string matches against the dictionary are
rewritten, everything else passes through unchanged. -/
def aplicarReemplazos (v : String) : String :=
  match reemplazos.lookup v with
  | some w => w
  | none => v

/-- Per-cell semantics of `canonizar_respuestas` (`app.py` lines 58–62):
`fillna("Sin respuesta")`, then `str.strip()`, then `replace(m)`. -/
def canonizarCelda (c : Option String) : String :=
  aplicarReemplazos (strip (c.getD "Sin respuesta"))

/-- Column-level `canonizar_respuestas`. -/
def canonizar_respuestas (col : List (Option String)) : List String :=
  col.map canonizarCelda

/-- `np.round` of the exact ratio `num / den` (`den > 0`): round half to even
(banker's rounding), as numpy's rounding does on `count * 100 / total`. -/
def roundHalfEven (num den : Nat) : Nat :=
  let q := num / den
  let r := num % den
  if 2 * r < den then q
  else if den < 2 * r then q + 1
  else if q % 2 == 0 then q else q + 1

/-- One row of a frequency table: `(Respuesta, Frecuencia, Porcentaje (%))`. -/
structure Fila where
  resp : String
  frec : Nat
  pct : Nat
deriving DecidableEq, Repr

/-- The distinct values of a list in first-occurrence order, each with its
number of occurrences: the hash-table phase of `Series.value_counts`. -/
def cuentaValores (l : List String) : List (String × Nat) :=
  l.foldl
    (fun acc v =>
      if acc.any (fun p => p.1 == v) then
        acc.map (fun p => if p.1 == v then (p.1, p.2 + 1) else p)
      else acc ++ [(v, 1)])
    []

/-- `Series.value_counts(dropna=False)`: counts of the distinct values, sorted
by count descending; ties keep first-occurrence order (stable sort). -/
def value_counts (l : List String) : List (String × Nat) :=
  List.insertionSort (fun a b => b.2 ≤ a.2) (cuentaValores l)

/-- `tabla_frecuencias` (`app.py` lines 64–70): canonicalize, count values,
attach the banker's-rounded percentage of each count, and append the `Total`
row whose percentage is hard-coded to `100`. -/
def tabla_frecuencias (col : List (Option String)) : List Fila :=
  let s := canonizar_respuestas col
  let t := value_counts s
  let total := (t.map Prod.snd).sum
  let filas := t.map (fun p => Fila.mk p.1 p.2 (roundHalfEven (p.2 * 100) total))
  filas ++ [Fila.mk "Total" total 100]

/-- Scale 1 of `ordenar_respuestas`: the frequency (Likert) scale. -/
def escala1 : List String :=
  ["Nunca", "Rara vez", "A veces", "Frecuentemente", "Siempre", "Sin respuesta", "Total"]

/-- Scale 2: the agreement scale. -/
def escala2 : List String :=
  ["Muy en desacuerdo", "En desacuerdo", "Neutral", "De acuerdo", "Muy de acuerdo", "Sin respuesta", "Total"]

/-- Scale 3: the ternary scale. -/
def escala3 : List String := ["No", "No sé", "Sí", "Sin respuesta", "Total"]

/-- Scale 4: the ternary-variant scale. -/
def escala4 : List String := ["Sí", "No", "No sé", "Sin respuesta", "Total"]

/-- The fixed library of known ordered response scales (`app.py` lines 73–78). -/
def ordenes : List (List String) := [escala1, escala2, escala3, escala4]

/-- A frequency-table DataFrame.  `filas` are the rows; `cat` is the dtype of
the `Respuesta` column: `none` for plain strings (every table the dashboard
builds), `some orden` after line 82 of `app.py` replaced the column with an
ordered `pd.Categorical` whose categories are `orden`. -/
structure TablaFrec where
  filas : List Fila
  cat : Option (List String) := none
deriving DecidableEq, Repr

/-- The `for orden in ordenes: if set(vals).issubset(set(orden))` scan:
first scale whose label set contains every value, if any. -/
def buscaOrden (vals : List String) : List (List String) → Option (List String)
  | [] => none
  | o :: rest => if vals.all (fun v => v ∈ o) then some o else buscaOrden vals rest

/-- Position of a label in a scale (`pd.Categorical` code used as sort key). -/
def posEn (orden : List String) (f : Fila) : Nat := orden.indexOf f.resp

/-- Code-point lexicographic `<` on strings, as Python compares strings
(used by `sort_values` on a plain string column). -/
def ltLex : List Char → List Char → Bool
  | _, [] => false
  | [], _ :: _ => true
  | a :: as, b :: bs => if a < b then true else if b < a then false else ltLex as bs

/-- `ordenar_respuestas` (`app.py` lines 72–86) over an explicit list of
scales, in state-passing style: the result is (state of the argument after the
call, returned table).  In the match case line 82 assigns the Categorical
column on the caller's DataFrame in place — the argument's `cat` changes —
and `sort_values("Respuesta")` sorts rows by category position (a stable sort;
on the distinct keys of a frequency table any correct sort agrees).  In the
fallback case the non-`Total` rows of a fresh copy are sorted
lexicographically and the `Total` rows are appended; the argument is not
mutated. -/
def ordenarCon (os : List (List String)) (t : TablaFrec) : TablaFrec × TablaFrec :=
  let vals := t.filas.map Fila.resp
  match buscaOrden vals os with
  | some orden =>
      let mutado : TablaFrec := ⟨t.filas, some orden⟩
      (mutado,
       ⟨List.insertionSort (fun a b => posEn orden a ≤ posEn orden b) t.filas, some orden⟩)
  | none =>
      let sinTotal := t.filas.filter (fun f => f.resp ≠ "Total")
      let conTotal := t.filas.filter (fun f => f.resp = "Total")
      (t, ⟨List.insertionSort (fun a b => ltLex b.resp.data a.resp.data = false) sinTotal ++ conTotal,
           t.cat⟩)

/-- `ordenar_respuestas` as in the source: scan the four scales. -/
def ordenar_respuestas (t : TablaFrec) : TablaFrec × TablaFrec :=
  ordenarCon ordenes t

/-- Variant of `ordenar_respuestas` with the fourth scale removed. -/
def ordenar_respuestas_sin4 (t : TablaFrec) : TablaFrec × TablaFrec :=
  ordenarCon ordenes.dropLast t

/-- One dataset row, restricted to the two fields the filter block reads:
the region column and the derived normalized-instance column. -/
structure Registro where
  region : String
  instancia : String
deriving DecidableEq, Repr

/-- The filter block (`app.py` lines 144–149): conjunction of the two
equality constraints, each disabled by the sentinel `"Todas"`. -/
def filtrar (rows : List Registro) (regionSel instSel : String) : List Registro :=
  rows.filter (fun r =>
    (regionSel == "Todas" || r.region == regionSel) &&
    (instSel == "Todas" || r.instancia == instSel))

/-- Lines 150–152: the empty subset is signalled (`st.warning` + `st.stop`),
modelled as `none`; a non-empty subset is returned as `some`. -/
def filtrarResultado (rows : List Registro) (regionSel instSel : String) :
    Option (List Registro) :=
  let l := filtrar rows regionSel instSel
  if l.isEmpty then none else some l

/-- The claim's notion of "discovery order": the distinct values of a list in
first-occurrence order. -/
def ordenDescubrimiento (l : List String) : List String :=
  l.foldl (fun acc v => if v ∈ acc then acc else acc ++ [v]) []

/-! ## Claim theorems -/

/-- The last-match-wins reading of the normalizer: because the source applies
its masks as sequential overwrites, the effective priority is the REVERSE of
the claimed one — null-ish first, then MINEDU, ODENAGED, DRE/GRE, UGEL. -/
def normalizarUltimaRegla (c : Option String) : String :=
  let s2 := mayusculas (c.getD "")
  if s2 == "" || s2 ∈ ["-", "NAN", "NONE"] then "Sin especificar"
  else if contiene s2 "MINEDU" then "MINEDU"
  else if contiene s2 "ODENAGED" then "ODENAGED"
  else if contiene s2 "DRE" || contiene s2 "GRE" then "DRE/GRE"
  else if contiene s2 "UGEL" then "UGEL"
  else "OTRAS"

/-- C2 counterexample: a cell containing both "UGEL" and "MINEDU" as
substrings is mapped to "MINEDU", not "UGEL" — the last matching mask wins,
not the first rule of the claimed priority order. -/
theorem normalizar_instancia_contraejemplo :
    contiene (mayusculas "UGEL MINEDU") "UGEL" = true ∧
    contiene (mayusculas "UGEL MINEDU") "MINEDU" = true ∧
    normalizar_instancia (some "UGEL MINEDU") = "MINEDU" ∧
    normalizar_instancia (some "UGEL MINEDU") ≠ "UGEL" := by decide

/-- C2 (amended): the masks of `normalizar_instancia` are sequential
overwrites, so the LAST matching rule determines the output (effective
priority: null-ish literals, then MINEDU, then ODENAGED, then DRE/GRE, then
UGEL); in particular a cell containing both "UGEL" and "MINEDU" is mapped to
"MINEDU". -/
theorem normalizar_instancia_prioridad (c : Option String) :
    normalizar_instancia c = normalizarUltimaRegla c ∧
    (contiene (mayusculas (c.getD "")) "UGEL" = true →
      contiene (mayusculas (c.getD "")) "MINEDU" = true →
      normalizar_instancia c = "MINEDU") := by
  constructor
  · dsimp only [normalizar_instancia, normalizarUltimaRegla]
  · intro hu hm
    have hne : mayusculas (c.getD "") ≠ "" := by
      intro h; rw [h] at hu; exact absurd hu (by decide)
    have hnm : mayusculas (c.getD "") ∉ (["-", "NAN", "NONE"] : List String) := by
      intro h
      simp only [List.mem_cons, List.not_mem_nil, or_false] at h
      rcases h with h | h | h <;> rw [h] at hu <;> exact absurd hu (by decide)
    unfold normalizar_instancia
    simp [hne, hnm, hm]

/-- C2 amended-claim witness at the concrete cell "UGEL MINEDU". -/
theorem normalizar_instancia_prioridad_witness :
    normalizar_instancia (some "UGEL MINEDU") = normalizarUltimaRegla (some "UGEL MINEDU") ∧
    normalizar_instancia (some "UGEL MINEDU") = "MINEDU" :=
  ⟨(normalizar_instancia_prioridad (some "UGEL MINEDU")).1,
   (normalizar_instancia_prioridad (some "UGEL MINEDU")).2 (by decide) (by decide)⟩

/-- C3: the Category Normalizer is total and deterministic — it is a function
on all cells (`Option String`, including `none` and the null-ish literals) and
every output is one of the six fixed labels.  Determinism is intrinsic: the
embedding is a pure function, so equal cells yield equal labels. -/
theorem normalizar_instancia_seis_etiquetas (c : Option String) :
    normalizar_instancia c ∈ etiquetasInstancia := by
  dsimp only [normalizar_instancia, etiquetasInstancia]
  repeat' split
  all_goals simp

/-- C5: the worked example.  The column `["Sí","Si","No","No sé","Sí", None]`
canonicalizes to `["Sí","Sí","No","No sé","Sí","Sin respuesta"]`, tabulates to
`[("Sí",3,50),("No",1,17),("No sé",1,17),("Sin respuesta",1,17),("Total",6,100)]`
and, after ordering (the ternary scale 3 matches), the labels read
`[No, No sé, Sí, Sin respuesta, Total]`. -/
theorem ejemplo_ternario :
    canonizar_respuestas [some "Sí", some "Si", some "No", some "No sé", some "Sí", none] =
      ["Sí", "Sí", "No", "No sé", "Sí", "Sin respuesta"] ∧
    tabla_frecuencias [some "Sí", some "Si", some "No", some "No sé", some "Sí", none] =
      [⟨"Sí", 3, 50⟩, ⟨"No", 1, 17⟩, ⟨"No sé", 1, 17⟩, ⟨"Sin respuesta", 1, 17⟩,
       ⟨"Total", 6, 100⟩] ∧
    ((ordenar_respuestas
        ⟨tabla_frecuencias [some "Sí", some "Si", some "No", some "No sé", some "Sí", none],
         none⟩).2.filas.map Fila.resp) =
      ["No", "No sé", "Sí", "Sin respuesta", "Total"] := by
  decide

/-- C7 counterexample: when a row's region field is literally the sentinel
"Todas", that value occurs in the dataset, yet filtering by it disables the
constraint and returns rows whose region field differs from it. -/
theorem filtrar_contraejemplo :
    ("Todas" ∈ ([⟨"Todas", "UGEL"⟩, ⟨"Lima", "UGEL"⟩] : List Registro).map Registro.region) ∧
    filtrar [⟨"Todas", "UGEL"⟩, ⟨"Lima", "UGEL"⟩] "Todas" "Todas" =
      [⟨"Todas", "UGEL"⟩, ⟨"Lima", "UGEL"⟩] ∧
    ¬ (∀ r ∈ filtrar [⟨"Todas", "UGEL"⟩, ⟨"Lima", "UGEL"⟩] "Todas" "Todas",
        r.region = "Todas") := by
  decide

/-- C7 (amended): for a region value OTHER than the sentinel "Todas": if it
occurs in the dataset the filtered subset is non-empty and every returned
row's region field equals it; if it occurs nowhere the explicit empty-result
signal (`none`, not an exception) is produced; and a constraint set to the
sentinel "Todas" is satisfied vacuously by every row. -/
theorem filtrar_region (rows : List Registro) (v : String) :
    (v ≠ "Todas" → v ∈ rows.map Registro.region →
      filtrar rows v "Todas" ≠ [] ∧ ∀ r ∈ filtrar rows v "Todas", r.region = v) ∧
    (v ≠ "Todas" → v ∉ rows.map Registro.region →
      filtrarResultado rows v "Todas" = none) ∧
    filtrar rows "Todas" "Todas" = rows := by
  refine ⟨fun hv hmem => ⟨?_, ?_⟩, fun hv hmem => ?_, ?_⟩
  · rcases List.mem_map.mp hmem with ⟨r, hr, hrv⟩
    have hpass : (v == "Todas" || r.region == v) && ("Todas" == "Todas" || r.instancia == "Todas") = true := by
      simp [hrv]
    intro hnil
    have : r ∈ filtrar rows v "Todas" := List.mem_filter.mpr ⟨hr, hpass⟩
    rw [hnil] at this
    exact absurd this (List.not_mem_nil r)
  · intro r hr
    have := (List.mem_filter.mp hr).2
    have hvt : (v == "Todas") = false := beq_eq_false_iff_ne.mpr hv
    simp only [hvt, Bool.false_or, Bool.and_eq_true, beq_iff_eq] at this
    exact this.1
  · unfold filtrarResultado
    have : filtrar rows v "Todas" = [] := by
      apply List.filter_eq_nil_iff.mpr
      intro r hr
      intro hpass
      have hvt : (v == "Todas") = false := beq_eq_false_iff_ne.mpr hv
      simp only [hvt, Bool.false_or, Bool.and_eq_true, beq_iff_eq] at hpass
      exact hmem (List.mem_map.mpr ⟨r, hr, hpass.1⟩)
    simp [this]
  · apply List.filter_eq_self.mpr
    intro r _
    simp

/-- C7 amended-claim witness on a concrete two-row dataset: filtering by the
present region "Lima", by the absent region "Cusco", and by the sentinel. -/
theorem filtrar_region_witness :
    (filtrar [⟨"Lima", "UGEL"⟩, ⟨"Puno", "MINEDU"⟩] "Lima" "Todas" ≠ [] ∧
      ∀ r ∈ filtrar [⟨"Lima", "UGEL"⟩, ⟨"Puno", "MINEDU"⟩] "Lima" "Todas",
        r.region = "Lima") ∧
    filtrarResultado [⟨"Lima", "UGEL"⟩, ⟨"Puno", "MINEDU"⟩] "Cusco" "Todas" = none ∧
    filtrar [⟨"Lima", "UGEL"⟩, ⟨"Puno", "MINEDU"⟩] "Todas" "Todas" =
      [⟨"Lima", "UGEL"⟩, ⟨"Puno", "MINEDU"⟩] :=
  ⟨(filtrar_region [⟨"Lima", "UGEL"⟩, ⟨"Puno", "MINEDU"⟩] "Lima").1
      (by decide) (by decide),
   (filtrar_region [⟨"Lima", "UGEL"⟩, ⟨"Puno", "MINEDU"⟩] "Cusco").2.1
      (by decide) (by decide),
   (filtrar_region [⟨"Lima", "UGEL"⟩, ⟨"Puno", "MINEDU"⟩] "Todas").2.2⟩

/-- C9 counterexample: `ordenar_respuestas` is NOT free of side effects.  On a
table matching the ternary scale, line 82 of `app.py` reassigns the input
DataFrame's label column in place as an ordered Categorical, so after the call
the input's label representation has changed (its dtype is no longer plain
strings). -/
theorem ordenar_respuestas_muta_contraejemplo :
    (ordenar_respuestas ⟨[⟨"No", 1, 100⟩, ⟨"Total", 1, 100⟩], none⟩).1 ≠
      ⟨[⟨"No", 1, 100⟩, ⟨"Total", 1, 100⟩], none⟩ := by
  decide

/-- C9 (amended): `ordenar_respuestas` is deterministic and leaves the input's
rows — labels, counts, percentages and their order — unchanged; but it is not
side-effect free: when some scale matches, the input's label column is
reassigned in place as an ordered Categorical over the matched scale (its
representation changes); only in the fallback case is the input unchanged. -/
theorem ordenar_respuestas_efecto (t : TablaFrec) :
    (ordenar_respuestas t).1.filas = t.filas ∧
    (∀ orden, buscaOrden (t.filas.map Fila.resp) ordenes = some orden →
      (ordenar_respuestas t).1 = ⟨t.filas, some orden⟩) ∧
    (buscaOrden (t.filas.map Fila.resp) ordenes = none →
      (ordenar_respuestas t).1 = t) := by
  unfold ordenar_respuestas ordenarCon
  rcases h : buscaOrden (t.filas.map Fila.resp) ordenes with _ | orden
  · simp [h]
  · simp [h]

/-- C9 amended-claim witness: a matched table (ternary scale) whose state
after the call carries the Categorical dtype, and an unmatched table (label
"Tal vez" is in no scale) left fully unchanged. -/
theorem ordenar_respuestas_efecto_witness :
    (ordenar_respuestas ⟨[⟨"No", 1, 100⟩, ⟨"Total", 1, 100⟩], none⟩).1 =
      ⟨[⟨"No", 1, 100⟩, ⟨"Total", 1, 100⟩], some escala3⟩ ∧
    (ordenar_respuestas ⟨[⟨"Tal vez", 1, 100⟩, ⟨"Total", 1, 100⟩], none⟩).1 =
      ⟨[⟨"Tal vez", 1, 100⟩, ⟨"Total", 1, 100⟩], none⟩ :=
  ⟨(ordenar_respuestas_efecto ⟨[⟨"No", 1, 100⟩, ⟨"Total", 1, 100⟩], none⟩).2.1
      escala3 (by decide),
   (ordenar_respuestas_efecto ⟨[⟨"Tal vez", 1, 100⟩, ⟨"Total", 1, 100⟩], none⟩).2.2
      (by decide)⟩

/-- C10: the fourth scale never determines the output.  Its label set equals
the third scale's label set, and the third scale is tested first, so
`ordenar_respuestas` coincides with the variant whose scale library drops the
fourth scale — on the returned table and on the caller-visible state alike. -/
theorem ordenar_respuestas_sin_cuarta (t : TablaFrec) :
    ordenar_respuestas t = ordenar_respuestas_sin4 t := by
  have hsub : ∀ v : String, v ∈ escala4 → v ∈ escala3 := by
    intro v hv
    simp only [escala4, List.mem_cons, List.not_mem_nil, or_false] at hv
    rcases hv with h | h | h | h | h <;> rw [h] <;> decide
  have hdrop : ordenes.dropLast = [escala1, escala2, escala3] := rfl
  unfold ordenar_respuestas ordenar_respuestas_sin4
  rw [hdrop]
  have key : buscaOrden (t.filas.map Fila.resp) ordenes =
      buscaOrden (t.filas.map Fila.resp) [escala1, escala2, escala3] := by
    set vals := t.filas.map Fila.resp
    simp only [ordenes, buscaOrden]
    by_cases h1 : vals.all (fun v => v ∈ escala1) = true
    · simp [h1]
    · by_cases h2 : vals.all (fun v => v ∈ escala2) = true
      · simp [h2]
      · by_cases h3 : vals.all (fun v => v ∈ escala3) = true
        · simp [h3]
        · have h4 : vals.all (fun v => v ∈ escala4) = false := by
            rcases Bool.eq_false_or_eq_true (vals.all fun v => v ∈ escala4) with h | h
            · exfalso
              apply h3
              apply List.all_eq_true.mpr
              intro x hx
              exact decide_eq_true (hsub x (of_decide_eq_true (List.all_eq_true.mp h x hx)))
            · exact h
          simp [h1, h2, h3, h4]
  unfold ordenarCon
  simp only [key]

/-- A prefix of a left-stripped list is itself left-stripped. -/
theorem dropWhile_de_prefijo {x y : List Char} (hx : x.dropWhile esEspacio = x)
    (hpre : y <+: x) : y.dropWhile esEspacio = y := by
  rcases y with _ | ⟨c, ys⟩
  · rfl
  · rcases hpre with ⟨tl, htl⟩
    subst htl
    have hc := List.dropWhile_eq_self_iff.mp hx (by simp)
    apply List.dropWhile_eq_self_iff.mpr
    intro hl
    simpa using hc

/-- Stripping both ends of a character list is idempotent. -/
theorem stripChars_idem (l : List Char) : stripChars (stripChars l) = stripChars l := by
  unfold stripChars
  set A := l.dropWhile esEspacio with hA
  have hAfix : A.dropWhile esEspacio = A := by
    rw [hA]; exact List.dropWhile_idempotent esEspacio l
  set y := (A.reverse.dropWhile esEspacio).reverse with hy
  have hyrev : y.reverse = A.reverse.dropWhile esEspacio := by
    rw [hy, List.reverse_reverse]
  have hyfix : y.dropWhile esEspacio = y := by
    apply dropWhile_de_prefijo hAfix
    apply List.reverse_suffix.mp
    rw [hyrev]
    exact List.dropWhile_suffix esEspacio
  rw [hyfix, hyrev, List.dropWhile_idempotent, ← hyrev, List.reverse_reverse]

/-- `str.strip()` is idempotent. -/
theorem strip_idem (s : String) : strip (strip s) = strip s :=
  congrArg String.mk (stripChars_idem s.data)

/-- A successful dictionary lookup returns one of the dictionary's values. -/
theorem lookup_valor {α β : Type} [BEq α] :
    ∀ (ps : List (α × β)) (v : α) (w : β), ps.lookup v = some w → w ∈ ps.map Prod.snd := by
  intro ps
  induction ps with
  | nil => intro v w h; cases h
  | cons p rest ih =>
    intro v w h
    obtain ⟨k, b⟩ := p
    rw [List.lookup_cons] at h
    rcases hk : v == k with _ | _ <;> simp only [hk] at h
    · simp only [List.map_cons, List.mem_cons]
      exact Or.inr (ih v w h)
    · injection h with h
      subst h
      simp

/-- `aplicarReemplazos` either rewrites to one of the two canonical spellings
or passes the value through unchanged. -/
theorem aplicarReemplazos_casos (v : String) :
    aplicarReemplazos v = "Sí" ∨ aplicarReemplazos v = "No sé" ∨ aplicarReemplazos v = v := by
  unfold aplicarReemplazos
  rcases h : reemplazos.lookup v with _ | w
  · right; right; rfl
  · have hmem := lookup_valor reemplazos v w h
    simp only [reemplazos, List.map_cons, List.map_nil, List.mem_cons, List.not_mem_nil,
      or_false] at hmem
    rcases hmem with h1 | h1 | h1 | h1 | h1 | h1 | h1 | h1 <;> subst h1 <;> simp

/-- The answer canonicalizer is idempotent cellwise. -/
theorem canonizarCelda_idem (c : Option String) :
    canonizarCelda (some (canonizarCelda c)) = canonizarCelda c := by
  unfold canonizarCelda
  simp only [Option.getD_some]
  rcases aplicarReemplazos_casos (strip (c.getD "Sin respuesta")) with h | h | h
  · rw [h]; decide
  · rw [h]; decide
  · rw [h, strip_idem]; exact h

/-- C6: the Answer Canonicalizer is idempotent — re-canonicalizing an
already-canonicalized column (re-read as a column of non-missing cells)
changes nothing. -/
theorem canonizar_respuestas_idempotente (col : List (Option String)) :
    canonizar_respuestas ((canonizar_respuestas col).map some) = canonizar_respuestas col := by
  unfold canonizar_respuestas
  rw [List.map_map, List.map_map]
  congr 1
  funext x
  exact canonizarCelda_idem x

/-- The keys of `cuentaValores` are the distinct values in discovery order. -/
theorem cuentaValores_claves (l : List String) :
    (cuentaValores l).map Prod.fst = ordenDescubrimiento l := by
  unfold cuentaValores ordenDescubrimiento
  suffices h : ∀ acc : List (String × Nat),
      (List.foldl
        (fun acc v =>
          if acc.any (fun p => p.1 == v) then
            acc.map (fun p => if p.1 == v then (p.1, p.2 + 1) else p)
          else acc ++ [(v, 1)]) acc l).map Prod.fst =
      List.foldl (fun acc v => if v ∈ acc then acc else acc ++ [v]) (acc.map Prod.fst) l by
    exact h []
  induction l with
  | nil => intro acc; rfl
  | cons x xs ih =>
    intro acc
    simp only [List.foldl_cons]
    rw [ih]
    congr 1
    by_cases hmem : acc.any (fun p => p.1 == x) = true
    · rw [if_pos hmem]
      have hx : x ∈ acc.map Prod.fst := by
        rcases List.any_eq_true.mp hmem with ⟨p, hp, hpx⟩
        exact List.mem_map.mpr ⟨p, hp, eq_of_beq hpx⟩
      rw [if_pos hx, List.map_map]
      apply List.map_congr_left
      intro p _
      by_cases hpx : (p.1 == x) = true
      · simp [Function.comp, hpx]
      · simp [Function.comp, hpx]
    · rw [if_neg hmem]
      have hx : x ∉ acc.map Prod.fst := by
        intro hc
        rcases List.mem_map.mp hc with ⟨p, hp, hpx⟩
        exact hmem (List.any_eq_true.mpr ⟨p, hp, beq_iff_eq.mpr hpx⟩)
      rw [if_neg hx, List.map_append]
      rfl

/-- Membership in the discovery-order list is membership in the column. -/
theorem mem_ordenDescubrimiento_aux (l : List String) :
    ∀ (acc : List String) (x : String),
      (x ∈ l.foldl (fun acc v => if v ∈ acc then acc else acc ++ [v]) acc) ↔
        (x ∈ acc ∨ x ∈ l) := by
  induction l with
  | nil => intro acc x; simp
  | cons v xs ih =>
    intro acc x
    simp only [List.foldl_cons]
    rw [ih]
    by_cases hv : v ∈ acc
    · rw [if_pos hv]
      constructor
      · rintro (h | h)
        · exact Or.inl h
        · exact Or.inr (List.mem_cons_of_mem v h)
      · rintro (h | h)
        · exact Or.inl h
        · rcases List.mem_cons.mp h with rfl | h2
          · exact Or.inl hv
          · exact Or.inr h2
    · rw [if_neg hv]
      simp only [List.mem_append, List.mem_singleton, List.mem_cons, List.not_mem_nil,
        or_false]
      tauto

/-- Membership form of `cuentaValores_claves`. -/
theorem mem_ordenDescubrimiento {x : String} {l : List String} :
    x ∈ ordenDescubrimiento l ↔ x ∈ l := by
  unfold ordenDescubrimiento
  rw [mem_ordenDescubrimiento_aux l [] x]
  simp

/-- Every key counted by `cuentaValores` occurs in the column. -/
theorem clave_en_lista {p : String × Nat} {l : List String}
    (hp : p ∈ cuentaValores l) : p.1 ∈ l := by
  have h1 : p.1 ∈ (cuentaValores l).map Prod.fst := List.mem_map.mpr ⟨p, hp, rfl⟩
  rw [cuentaValores_claves] at h1
  exact mem_ordenDescubrimiento.mp h1

/-- C1 counterexample: if the literal string "Total" occurs as an answer
value, the table contains TWO rows labeled "Total" — the claim's "exactly one
row labeled Total" fails (the synthetic appended row is still last, and its
count still equals the sum of the preceding rows). -/
theorem tabla_frecuencias_total_contraejemplo :
    tabla_frecuencias [some "Total"] = [⟨"Total", 1, 100⟩, ⟨"Total", 1, 100⟩] ∧
    (tabla_frecuencias [some "Total"]).countP (fun f => f.resp == "Total") = 2 := by
  decide

/-- C1 (amended): for every input column the tabulator appends exactly one
synthetic Total row last, whose count equals the sum of all preceding rows'
counts and whose percentage is exactly 100 regardless of rounding drift; when
"Total" does not occur among the canonicalized values, that synthetic row is
the unique row labeled "Total". -/
theorem tabla_frecuencias_fila_total (col : List (Option String)) :
    ∃ filas : List Fila,
      tabla_frecuencias col = filas ++ [Fila.mk "Total" ((filas.map Fila.frec).sum) 100] ∧
      ("Total" ∉ canonizar_respuestas col →
        (tabla_frecuencias col).countP (fun f => f.resp == "Total") = 1) := by
  set s := canonizar_respuestas col with hs
  set t := value_counts s with ht
  set filas := t.map
      (fun p => Fila.mk p.1 p.2 (roundHalfEven (p.2 * 100) ((t.map Prod.snd).sum))) with hf
  have h2 : filas.map Fila.frec = t.map Prod.snd := by
    rw [hf, List.map_map]; rfl
  have h1 : tabla_frecuencias col = filas ++ [Fila.mk "Total" ((filas.map Fila.frec).sum) 100] := by
    rw [h2]; rfl
  refine ⟨filas, h1, fun hT => ?_⟩
  rw [h1, List.countP_append]
  have hone : List.countP (fun f => f.resp == "Total")
      [Fila.mk "Total" ((filas.map Fila.frec).sum) 100] = 1 := by
    simp [List.countP_cons]
  have hzero : filas.countP (fun f => f.resp == "Total") = 0 := by
    apply List.countP_eq_zero.mpr
    intro f hfm
    rw [hf] at hfm
    rcases List.mem_map.mp hfm with ⟨p, hp, rfl⟩
    simp only [beq_iff_eq]
    intro heq
    apply hT
    have hpc : p ∈ cuentaValores s := by
      rw [ht] at hp
      unfold value_counts at hp
      exact (List.mem_insertionSort _).mp hp
    have := clave_en_lista hpc
    rw [heq] at this
    exact this
  rw [hone, hzero]

/-- C1 amended-claim witness: a column without the literal value "Total" has a
unique Total row. -/
theorem tabla_frecuencias_fila_total_witness :
    (tabla_frecuencias [some "No"]).countP (fun f => f.resp == "Total") = 1 :=
  Exists.elim (tabla_frecuencias_fila_total [some "No"]) (fun _ h => h.2 (by decide))

/-- C8 counterexample: the tabulator's row order is NOT first-occurrence
order.  For the column `["A","B","B"]` the first-occurrence order of distinct
values is `[A, B]`, but `value_counts` sorts by count descending, so the table
reads `[B, A, Total]`. -/
theorem tabla_frecuencias_orden_contraejemplo :
    (tabla_frecuencias [some "A", some "B", some "B"]).map Fila.resp = ["B", "A", "Total"] ∧
    ordenDescubrimiento (canonizar_respuestas [some "A", some "B", some "B"]) ++ ["Total"] =
      ["A", "B", "Total"] ∧
    (["B", "A", "Total"] : List String) ≠ ["A", "B", "Total"] := by
  decide

/-- Count bookkeeping of `cuentaValores`: folding the counting step over
`rest` starting from `acc` yields entries whose counts agree with `f`,
provided `acc`'s entries are `f` minus their remaining occurrences and keys
not yet seen have all their occurrences still ahead. -/
theorem cuentaValores_cuenta_aux (rest : List String) :
    ∀ (acc : List (String × Nat)) (f : String → Nat),
      (∀ p ∈ acc, p.2 + rest.count p.1 = f p.1) →
      (∀ v, v ∉ acc.map Prod.fst → rest.count v = f v) →
      ∀ p ∈ rest.foldl
          (fun acc v =>
            if acc.any (fun p => p.1 == v) then
              acc.map (fun p => if p.1 == v then (p.1, p.2 + 1) else p)
            else acc ++ [(v, 1)]) acc,
        p.2 = f p.1 := by
  induction rest with
  | nil =>
    intro acc f h1 _ p hp
    have := h1 p hp
    simpa using this
  | cons x rest ih =>
    intro acc f h1 h2 p hp
    rw [List.foldl_cons] at hp
    refine ih _ f ?_ ?_ p hp
    · intro q hq
      by_cases hmem : acc.any (fun p => p.1 == x) = true
      · rw [if_pos hmem] at hq
        rcases List.mem_map.mp hq with ⟨q0, hq0, rfl⟩
        by_cases hqx : (q0.1 == x) = true
        · rw [if_pos hqx]
          have hx : q0.1 = x := eq_of_beq hqx
          have h0 := h1 q0 hq0
          rw [hx, List.count_cons_self] at h0
          rw [hx]
          show q0.2 + 1 + rest.count x = f x
          omega
        · rw [if_neg hqx]
          have hx : q0.1 ≠ x := fun h => hqx (beq_iff_eq.mpr h)
          have := h1 q0 hq0
          rw [List.count_cons_of_ne hx] at this
          exact this
      · rw [if_neg hmem] at hq
        rcases List.mem_append.mp hq with hq | hq
        · have hx : q.1 ≠ x := by
            intro h
            exact hmem (List.any_eq_true.mpr ⟨q, hq, beq_iff_eq.mpr h⟩)
          have := h1 q hq
          rw [List.count_cons_of_ne hx] at this
          exact this
        · rcases List.mem_singleton.mp hq with rfl
          have hxk : x ∉ acc.map Prod.fst := by
            intro h
            rcases List.mem_map.mp h with ⟨q0, hq0, hq0x⟩
            exact hmem (List.any_eq_true.mpr ⟨q0, hq0, beq_iff_eq.mpr hq0x⟩)
          have h0 := h2 x hxk
          rw [List.count_cons_self] at h0
          show 1 + rest.count x = f x
          omega
    · intro v hv
      by_cases hmem : acc.any (fun p => p.1 == x) = true
      · rw [if_pos hmem] at hv
        have hkeys : (acc.map (fun p => if p.1 == x then (p.1, p.2 + 1) else p)).map Prod.fst =
            acc.map Prod.fst := by
          rw [List.map_map]
          apply List.map_congr_left
          intro p _
          by_cases hpx : (p.1 == x) = true
          · simp [Function.comp, hpx]
          · simp [Function.comp, hpx]
        rw [hkeys] at hv
        have hxin : x ∈ acc.map Prod.fst := by
          rcases List.any_eq_true.mp hmem with ⟨q0, hq0, hq0x⟩
          exact List.mem_map.mpr ⟨q0, hq0, eq_of_beq hq0x⟩
        have hvx : v ≠ x := fun h => hv (h ▸ hxin)
        have := h2 v hv
        rw [List.count_cons_of_ne hvx] at this
        exact this
      · rw [if_neg hmem, List.map_append] at hv
        have hva : v ∉ acc.map Prod.fst := fun h => hv (List.mem_append.mpr (Or.inl h))
        have hvx : v ≠ x := by
          intro h
          exact hv (List.mem_append.mpr (Or.inr (by simp [h])))
        have := h2 v hva
        rw [List.count_cons_of_ne hvx] at this
        exact this

/-- Each entry of `cuentaValores` pairs a value with its number of
occurrences in the column. -/
theorem cuentaValores_cuenta (l : List String) :
    ∀ p ∈ cuentaValores l, p.2 = l.count p.1 := by
  intro p hp
  exact cuentaValores_cuenta_aux l [] (fun v => l.count v)
    (by simp) (fun v _ => rfl) p hp

/-- The discovery-order list of distinct values has no duplicates. -/
theorem ordenDescubrimiento_nodup (l : List String) : (ordenDescubrimiento l).Nodup := by
  unfold ordenDescubrimiento
  suffices h : ∀ acc : List String, acc.Nodup →
      (l.foldl (fun acc v => if v ∈ acc then acc else acc ++ [v]) acc).Nodup from
    h [] List.nodup_nil
  induction l with
  | nil => intro acc h; exact h
  | cons x xs ih =>
    intro acc h
    rw [List.foldl_cons]
    apply ih
    by_cases hx : x ∈ acc
    · rw [if_pos hx]; exact h
    · rw [if_neg hx]
      simp [List.nodup_append, h, hx]

/-- In a duplicate-free list, positions strictly increase along the list. -/
theorem pairwise_indexOf_lt {d : List String} (hd : d.Nodup) :
    d.Pairwise (fun x y => d.indexOf x < d.indexOf y) := by
  apply List.pairwise_iff_getElem.mpr
  intro i j hi hj hij
  rw [List.indexOf_getElem hd i hi, List.indexOf_getElem hd j hj]
  exact hij

/-- Inserting an element whose secondary key precedes every element of a list
sorted by (count descending, ties by secondary key) keeps the list sorted by
that combined strict order. -/
theorem orderedInsert_estable {α : Type} (cnt idx : α → Nat) (p : α) :
    ∀ m : List α,
      m.Pairwise (fun a b => cnt b < cnt a ∨ (cnt a = cnt b ∧ idx a < idx b)) →
      (∀ q ∈ m, idx p < idx q) →
      (List.orderedInsert (fun a b => cnt b ≤ cnt a) p m).Pairwise
        (fun a b => cnt b < cnt a ∨ (cnt a = cnt b ∧ idx a < idx b)) := by
  intro m
  induction m with
  | nil => intro _ _; simp
  | cons b rest ih =>
    intro hK hidx
    simp only [List.orderedInsert]
    by_cases hr : cnt b ≤ cnt p
    · rw [if_pos hr]
      apply List.pairwise_cons.mpr
      refine ⟨?_, hK⟩
      intro q hq
      have hqb : cnt q ≤ cnt b := by
        rcases List.mem_cons.mp hq with rfl | hq2
        · exact le_refl _
        · rcases List.rel_of_pairwise_cons hK hq2 with h | h
          · exact le_of_lt h
          · exact le_of_eq h.1.symm
      rcases lt_or_eq_of_le (le_trans hqb hr) with h | h
      · exact Or.inl h
      · exact Or.inr ⟨h.symm, hidx q hq⟩
    · rw [if_neg hr]
      apply List.pairwise_cons.mpr
      constructor
      · intro q hq
        rcases (List.mem_orderedInsert _).mp hq with rfl | hq2
        · exact Or.inl (Nat.lt_of_not_le hr)
        · exact List.rel_of_pairwise_cons hK hq2
      · exact ih hK.of_cons (fun q hq => hidx q (List.mem_cons_of_mem b hq))

/-- Stability of the descending-count sort: if the input's secondary keys
strictly increase along the list (first-occurrence order), the sorted output
is pairwise ordered by count descending with ties broken by the secondary
key — the unique stable order. -/
theorem insertionSort_estable {α : Type} (cnt idx : α → Nat) :
    ∀ l : List α, l.Pairwise (fun a b => idx a < idx b) →
      (List.insertionSort (fun a b => cnt b ≤ cnt a) l).Pairwise
        (fun a b => cnt b < cnt a ∨ (cnt a = cnt b ∧ idx a < idx b)) := by
  intro l
  induction l with
  | nil => intro _; simp
  | cons p rest ih =>
    intro hl
    simp only [List.insertionSort]
    apply orderedInsert_estable
    · exact ih hl.of_cons
    · intro q hq
      exact List.rel_of_pairwise_cons hl ((List.mem_insertionSort _).mp hq)

/-- C8 (amended): before the Response Orderer runs, the rows of the frequency
table are the distinct canonicalized values of the column in `value_counts`
order — sorted by count descending with equal-count values in first-occurrence
order, not plain first-occurrence order — with only the Total row appended
after them.  The pairwise strict key order (count descending, ties by
discovery index) together with the permutation pins the row order uniquely. -/
theorem tabla_frecuencias_orden_descendente (col : List (Option String)) :
    ∃ filas : List Fila,
      tabla_frecuencias col = filas ++ [Fila.mk "Total" ((filas.map Fila.frec).sum) 100] ∧
      filas.Pairwise (fun a b => b.frec ≤ a.frec) ∧
      (filas.map Fila.resp).Pairwise (fun x y =>
        (canonizar_respuestas col).count y < (canonizar_respuestas col).count x ∨
        ((canonizar_respuestas col).count x = (canonizar_respuestas col).count y ∧
          (ordenDescubrimiento (canonizar_respuestas col)).indexOf x <
            (ordenDescubrimiento (canonizar_respuestas col)).indexOf y)) ∧
      filas.map Fila.frec =
        (filas.map Fila.resp).map (fun v => (canonizar_respuestas col).count v) ∧
      (filas.map Fila.resp).Perm (ordenDescubrimiento (canonizar_respuestas col)) := by
  set s := canonizar_respuestas col with hs
  set t := value_counts s with ht
  set filas := t.map
      (fun p => Fila.mk p.1 p.2 (roundHalfEven (p.2 * 100) ((t.map Prod.snd).sum))) with hf
  have h2 : filas.map Fila.frec = t.map Prod.snd := by
    rw [hf, List.map_map]; rfl
  have h3 : filas.map Fila.resp = t.map Prod.fst := by
    rw [hf, List.map_map]; rfl
  have h1 : tabla_frecuencias col = filas ++ [Fila.mk "Total" ((filas.map Fila.frec).sum) 100] := by
    rw [h2]; rfl
  have hkeys : (cuentaValores s).Pairwise (fun p q =>
      (ordenDescubrimiento s).indexOf p.1 < (ordenDescubrimiento s).indexOf q.1) := by
    have hmapd : ((cuentaValores s).map Prod.fst).Pairwise (fun x y =>
        (ordenDescubrimiento s).indexOf x < (ordenDescubrimiento s).indexOf y) := by
      rw [cuentaValores_claves s]
      exact pairwise_indexOf_lt (ordenDescubrimiento_nodup s)
    exact List.Pairwise.of_map Prod.fst (fun a b h => h) hmapd
  have hsortedT : t.Pairwise (fun p q : String × Nat =>
      q.2 < p.2 ∨ (p.2 = q.2 ∧
        (ordenDescubrimiento s).indexOf p.1 < (ordenDescubrimiento s).indexOf q.1)) := by
    rw [ht]
    unfold value_counts
    exact insertionSort_estable Prod.snd (fun p => (ordenDescubrimiento s).indexOf p.1)
      (cuentaValores s) hkeys
  have hcount : ∀ p ∈ t, p.2 = s.count p.1 := by
    intro p hp
    rw [ht] at hp
    unfold value_counts at hp
    exact cuentaValores_cuenta s p ((List.mem_insertionSort _).mp hp)
  refine ⟨filas, h1, ?_, ?_, ?_, ?_⟩
  · rw [hf]
    exact List.Pairwise.map _ (fun a b h => h)
      (hsortedT.imp (fun h => h.elim le_of_lt (fun h2 => le_of_eq h2.1.symm)))
  · rw [h3]
    apply List.pairwise_map.mpr
    apply List.Pairwise.imp_of_mem ?_ hsortedT
    intro p q hp hq hpq
    rcases hpq with h | h
    · exact Or.inl (by rw [← hcount p hp, ← hcount q hq]; exact h)
    · exact Or.inr ⟨by rw [← hcount p hp, ← hcount q hq]; exact h.1, h.2⟩
  · rw [h2, h3, List.map_map]
    apply List.map_congr_left
    intro p hp
    exact hcount p hp
  · rw [h3, ← cuentaValores_claves, hs]
    apply List.Perm.map
    rw [ht]
    unfold value_counts
    exact List.perm_insertionSort _ _

/-- C4: on a frequency table (distinct labels) whose label set is contained in
the frequency scale, the Response Orderer returns the rows exactly in scale
order restricted to the labels present — `[Nunca, Rara vez, A veces,
Frecuentemente, Siempre, Sin respuesta, Total]` filtered to present labels —
as a permutation of the input rows, with the Total row (when present) last. -/
theorem ordenar_respuestas_escala_frecuencia (t : TablaFrec)
    (hnd : (t.filas.map Fila.resp).Nodup)
    (hsub : ∀ v ∈ t.filas.map Fila.resp, v ∈ escala1) :
    (ordenar_respuestas t).2.filas.map Fila.resp =
      escala1.filter (fun v => v ∈ t.filas.map Fila.resp) ∧
    ((ordenar_respuestas t).2.filas).Perm t.filas ∧
    ("Total" ∈ t.filas.map Fila.resp →
      ((ordenar_respuestas t).2.filas.map Fila.resp).getLast? = some "Total") := by
  haveI instTot : IsTotal Fila (fun a b => posEn escala1 a ≤ posEn escala1 b) :=
    ⟨fun a b => Nat.le_total _ _⟩
  haveI instTrans : IsTrans Fila (fun a b => posEn escala1 a ≤ posEn escala1 b) :=
    ⟨fun _ _ _ => le_trans⟩
  haveI instAnti : IsAntisymm String (fun x y => escala1.indexOf x < escala1.indexOf y) :=
    ⟨fun _ _ h1 h2 => absurd (h1.trans h2) (lt_irrefl _)⟩
  have hall : (t.filas.map Fila.resp).all (fun v => v ∈ escala1) = true :=
    List.all_eq_true.mpr (fun x hx => decide_eq_true (hsub x hx))
  have hbusca : buscaOrden (t.filas.map Fila.resp) ordenes = some escala1 := by
    unfold ordenes buscaOrden
    rw [if_pos hall]
  have hord : (ordenar_respuestas t).2 =
      ⟨List.insertionSort (fun a b => posEn escala1 a ≤ posEn escala1 b) t.filas,
       some escala1⟩ := by
    unfold ordenar_respuestas ordenarCon
    simp only [hbusca]
  have hperm : (List.insertionSort (fun a b => posEn escala1 a ≤ posEn escala1 b)
      t.filas).Perm t.filas := List.perm_insertionSort _ _
  have hLperm : ((List.insertionSort (fun a b => posEn escala1 a ≤ posEn escala1 b)
      t.filas).map Fila.resp).Perm (t.filas.map Fila.resp) := hperm.map Fila.resp
  have hsorted0 : List.Pairwise (fun a b => posEn escala1 a ≤ posEn escala1 b)
      (List.insertionSort (fun a b => posEn escala1 a ≤ posEn escala1 b) t.filas) :=
    List.sorted_insertionSort _ t.filas
  have hLsorted : ((List.insertionSort (fun a b => posEn escala1 a ≤ posEn escala1 b)
      t.filas).map Fila.resp).Pairwise
        (fun x y => escala1.indexOf x ≤ escala1.indexOf y) :=
    List.Pairwise.map Fila.resp (fun a b h => h) hsorted0
  have hLnodup : ((List.insertionSort (fun a b => posEn escala1 a ≤ posEn escala1 b)
      t.filas).map Fila.resp).Nodup := hLperm.nodup_iff.mpr hnd
  have hLstrict : ((List.insertionSort (fun a b => posEn escala1 a ≤ posEn escala1 b)
      t.filas).map Fila.resp).Pairwise
        (fun x y => escala1.indexOf x < escala1.indexOf y) := by
    apply List.Pairwise.imp_of_mem ?_ (hLsorted.and hLnodup)
    intro a b ha hb hab
    have hav : a ∈ escala1 := hsub a (hLperm.mem_iff.mp ha)
    have hbv : b ∈ escala1 := hsub b (hLperm.mem_iff.mp hb)
    exact lt_of_le_of_ne hab.1 (fun heq => hab.2 ((List.indexOf_inj hav hbv).mp heq))
  have hRnodup : (escala1.filter (fun v => v ∈ t.filas.map Fila.resp)).Nodup := by
    apply List.Nodup.filter
    decide
  have hRstrict : (escala1.filter (fun v => v ∈ t.filas.map Fila.resp)).Pairwise
      (fun x y => escala1.indexOf x < escala1.indexOf y) := by
    apply List.Pairwise.sublist (List.filter_sublist escala1)
    decide
  have hLR : ((List.insertionSort (fun a b => posEn escala1 a ≤ posEn escala1 b)
      t.filas).map Fila.resp).Perm
        (escala1.filter (fun v => v ∈ t.filas.map Fila.resp)) := by
    apply List.perm_of_nodup_nodup_toFinset_eq hLnodup hRnodup
    apply Finset.ext
    intro x
    simp only [List.mem_toFinset, List.mem_filter, hLperm.mem_iff, decide_eq_true_eq]
    exact ⟨fun h => ⟨hsub x h, h⟩, fun h => h.2⟩
  have hmain : (List.insertionSort (fun a b => posEn escala1 a ≤ posEn escala1 b)
      t.filas).map Fila.resp = escala1.filter (fun v => v ∈ t.filas.map Fila.resp) :=
    List.eq_of_perm_of_sorted hLR hLstrict hRstrict
  refine ⟨?_, ?_, ?_⟩
  · rw [hord]
    exact hmain
  · rw [hord]
    exact hperm
  · intro hTot
    rw [hord]
    show ((List.insertionSort (fun a b => posEn escala1 a ≤ posEn escala1 b)
      t.filas).map Fila.resp).getLast? = some "Total"
    rw [hmain]
    have he : escala1 = escala1.dropLast ++ ["Total"] := rfl
    rw [he, List.filter_append]
    have hp : (fun v => decide (v ∈ t.filas.map Fila.resp)) "Total" = true :=
      decide_eq_true hTot
    rw [List.filter_cons, if_pos hp]
    show (_ ++ ["Total"]).getLast? = some "Total"
    rw [List.getLast?_concat]

/-- C4 witness: a concrete table over the frequency scale is returned in scale
order with Total last. -/
theorem ordenar_respuestas_escala_frecuencia_witness :
    (ordenar_respuestas ⟨[⟨"Siempre", 2, 50⟩, ⟨"Nunca", 1, 25⟩, ⟨"A veces", 1, 25⟩,
        ⟨"Total", 4, 100⟩], none⟩).2.filas.map Fila.resp =
      escala1.filter (fun v => v ∈ ([⟨"Siempre", 2, 50⟩, ⟨"Nunca", 1, 25⟩,
        ⟨"A veces", 1, 25⟩, ⟨"Total", 4, 100⟩] : List Fila).map Fila.resp) ∧
    ((ordenar_respuestas ⟨[⟨"Siempre", 2, 50⟩, ⟨"Nunca", 1, 25⟩, ⟨"A veces", 1, 25⟩,
        ⟨"Total", 4, 100⟩], none⟩).2.filas.map Fila.resp).getLast? = some "Total" :=
  ⟨(ordenar_respuestas_escala_frecuencia
      ⟨[⟨"Siempre", 2, 50⟩, ⟨"Nunca", 1, 25⟩, ⟨"A veces", 1, 25⟩, ⟨"Total", 4, 100⟩], none⟩
      (by decide) (by decide)).1,
   (ordenar_respuestas_escala_frecuencia
      ⟨[⟨"Siempre", 2, 50⟩, ⟨"Nunca", 1, 25⟩, ⟨"A veces", 1, 25⟩, ⟨"Total", 4, 100⟩], none⟩
      (by decide) (by decide)).2.2 (by decide)⟩
